import Mathlib

/-
Verification development for the eliasfl-chess engine (src/lib.rs).

Shallow embedding conventions:
- u8 coordinates are modelled as Nat; i32 offset arithmetic as Int.
- HashMap<Position, Piece> is modelled extensionally as a function
  Position -> Option Piece; iteration over its entries is modelled as
  iteration over the 64 board squares (faithful for every board whose
  keys are on-board squares, which holds for all reachable games).
- HashSet<Position> is modelled as a deduplicated List Position (only
  membership, emptiness, and the sorted textual image are observable).
- Result<T, &str> is modelled as Except String T with the source's
  error messages.
-/

set_option maxHeartbeats 1000000

deriving instance DecidableEq for Except

namespace EChess

/-- Coarse game status, mirroring enum GameState. -/
inductive GameState where
  | InProgress
  | Check
  | CheckMate
deriving DecidableEq

/-- Piece color, mirroring enum Color. -/
inductive Color where
  | White
  | Black
deriving DecidableEq

/-- Forward direction of a color, mirroring Color::direction. -/
def Color.direction : Color → Int
  | .White => 1
  | .Black => -1

/-- The opposing color, mirroring impl Not for Color. -/
def Color.not : Color → Color
  | .White => .Black
  | .Black => .White

/-- Chess piece with owning color, mirroring enum Piece. -/
inductive Piece where
  | King (c : Color)
  | Queen (c : Color)
  | Rook (c : Color)
  | Bishop (c : Color)
  | Knight (c : Color)
  | Pawn (c : Color)
deriving DecidableEq

/-- Owning color of a piece, mirroring Piece::color (which matches all
White variants and defaults to Black, extensionally the payload). -/
def Piece.color : Piece → Color
  | .King c | .Queen c | .Rook c | .Bishop c | .Knight c | .Pawn c => c

/-- Whether a piece is a King (the matches macro on Piece::King). -/
def Piece.isKing : Piece → Bool
  | .King _ => true
  | _ => false

/-- Whether a piece is a Pawn (the matches macro on Piece::Pawn). -/
def Piece.isPawn : Piece → Bool
  | .Pawn _ => true
  | _ => false

/-- Board coordinate, mirroring struct Position with u8 file and rank
(1 to 8 when on the board). -/
structure Position where
  file : Nat
  rank : Nat
deriving DecidableEq

/-- Offset a position, mirroring Position::relative_pos: the i32 sums must
both land in 1..=8, otherwise None. -/
def Position.relative_pos (p : Position) (file_offset rank_offset : Int) : Option Position :=
  let file : Int := (p.file : Int) + file_offset
  let rank : Int := (p.rank : Int) + rank_offset
  if (1 ≤ file ∧ file ≤ 8) ∧ (1 ≤ rank ∧ rank ≤ 8) then
    some ⟨file.toNat, rank.toNat⟩
  else
    none

/-- Whether the position is on the chess board, mirroring Position::is_valid. -/
def Position.isValid (p : Position) : Bool :=
  (1 ≤ p.file ∧ p.file ≤ 8) ∧ (1 ≤ p.rank ∧ p.rank ≤ 8)

/-- ASCII lowercasing of one character; model of the str::to_lowercase call
applied to the single-character file part (only ASCII letters can reach the
a..=h comparison). -/
def lowerAscii (c : Char) : Char :=
  if 'A' ≤ c ∧ c ≤ 'Z' then Char.ofNat (c.toNat + 32) else c

/-- Model of u8::from_str as used by the rank part: an optional leading
plus sign followed by at least one ASCII digit. The 1..=8 range check that
follows makes the u8 overflow error indistinguishable from the range error,
so the numeral is computed unboundedly. -/
def parseNat? (cs : List Char) : Option Nat :=
  let body := match cs with
    | '+' :: rest => rest
    | other => other
  if body.isEmpty then none
  else if body.all (fun c => c.isDigit) then
    some (body.foldl (fun a c => a * 10 + (c.toNat - 48)) 0)
  else none

/-- Parse a square from text, mirroring Position::from_string: at least two
characters, first a letter a-h (case-insensitive), the remainder a rank in
1..=8. The rank-parse failure message stands in for the propagated
ParseIntError. -/
def Position.from_string (s : String) : Except String Position :=
  if s.data.length < 2 then
    .error "Position should consist of file and rank (at least 2 characters)"
  else
    match s.data with
    | [] => .error "Position should consist of file and rank (at least 2 characters)"
    | c :: rest =>
      let lc := lowerAscii c
      if 'a' ≤ lc ∧ lc ≤ 'h' then
        match parseNat? rest with
        | some r =>
          if 1 ≤ r ∧ r ≤ 8 then .ok ⟨lc.toNat - 96, r⟩
          else .error "Rank out of range: [1, 8]"
        | none => .error "invalid digit found in string"
      else .error "Invalid file, should be in range [a, h]"

/-- Format a square as text, mirroring Position::to_string: the file letter
(char code file + 96) followed by the rank digit, space if not a digit. -/
def Position.to_string (p : Position) : String :=
  ⟨[Char.ofNat (p.file + 96), if p.rank < 10 then Char.ofNat (48 + p.rank) else ' ']⟩

/-- File offsets -8..=8 walked by the Rook arm of valid_destinations. -/
def offsets17 : List Int := (List.range 17).map (fun i => (i : Int) - 8)

/-- The 3x3 grid of offsets walked by the King arm (including (0,0),
removed afterwards with the origin). -/
def kingOffsets : List (Int × Int) :=
  [(-1, -1), (-1, 0), (-1, 1), (0, -1), (0, 0), (0, 1), (1, -1), (1, 0), (1, 1)]

/-- The eight Knight offsets. -/
def knightOffsets : List (Int × Int) :=
  [(2, 1), (2, -1), (-2, 1), (-2, -1), (1, 2), (1, -2), (-1, 2), (-1, -2)]

/-- The four diagonal directions walked by the Bishop arm. -/
def bishopDirections : List (Int × Int) := [(1, 1), (1, -1), (-1, 1), (-1, -1)]

/-- Diagonal distances 1..=8 walked by the Bishop arm. -/
def diagRange : List Int := (List.range 8).map (fun i => (i : Int) + 1)

/-- Geometric Rook destinations before removing the origin (file offsets
-8..=8, then rank offsets -8..=8, off-board offsets dropped). -/
def rookRaw (pos : Position) : List Position :=
  (offsets17.filterMap fun o => pos.relative_pos o 0)
    ++ (offsets17.filterMap fun o => pos.relative_pos 0 o)

/-- Geometric Bishop destinations before removing the origin (four diagonal
directions, distances 1..=8, off-board results dropped). -/
def bishopRaw (pos : Position) : List Position :=
  (bishopDirections.map fun dir =>
      diagRange.filterMap fun diag => pos.relative_pos (diag * dir.1) (diag * dir.2)).flatten

/-- Geometric Pawn destinations before removing the origin, mirroring the
Pawn arm: one or two forward steps (two when the rank is 2 or 7), plus the
two forward diagonals, direction given by the color. -/
def pawnRaw (c : Color) (pos : Position) : List Position :=
  let steps : Nat := if pos.rank = 2 ∨ pos.rank = 7 then 2 else 1
  ((List.range steps).filterMap fun (i : Nat) => pos.relative_pos 0 (((i : Int) + 1) * c.direction))
    ++ ([(-1 : Int), 1].filterMap fun fo => pos.relative_pos fo c.direction)

/-- All geometrically reachable destinations of a piece from a square,
mirroring Piece::valid_destinations; the HashSet is modelled as a
deduplicated list and the origin square is removed at the end. The Queen
arm is the union of the Rook and Bishop arms (the source calls the White
variants; the sets are color-independent, and removing the origin from each
operand before the union equals removing it once after). -/
def Piece.valid_destinations (piece : Piece) (pos : Position) : List Position :=
  ((match piece with
    | .King _ => kingOffsets.filterMap fun (o : Int × Int) => pos.relative_pos o.1 o.2
    | .Queen _ => rookRaw pos ++ bishopRaw pos
    | .Rook _ => rookRaw pos
    | .Bishop _ => bishopRaw pos
    | .Knight _ => knightOffsets.filterMap fun (o : Int × Int) => pos.relative_pos o.1 o.2
    | .Pawn c => pawnRaw c pos).dedup).filter fun q => q ≠ pos

/-- The board: HashMap from Position to Piece, modelled extensionally. -/
def Board : Type := Position → Option Piece

/-- Whether an optional board entry holds a King, the matches macro on
Some(Piece::King(_)). -/
def isKingOpt : Option Piece → Bool
  | some (Piece.King _) => true
  | _ => false

/-- The 64 on-board squares, the domain over which HashMap iteration is
modelled. -/
def allPositions : List Position :=
  (List.range 64).map (fun i => ⟨i / 8 + 1, i % 8 + 1⟩)

/-- Same-file and same-rank walks of the squares strictly between two
coordinates, as the Rook or Pawn arm of _is_piece_in_way iterates them:
min + 1 up to (excluding) max. -/
def betweenNats (a c : Nat) : List Nat :=
  List.range' (min a c + 1) (max a c - (min a c + 1))

/-- The Rook or Pawn arm of Game::_is_piece_in_way: when the two squares
share a file, test the squares strictly between the ranks; when they share
a rank, test the squares strictly between the files. -/
def rookInWay (b : Board) (p d : Position) : Bool :=
  ((if p.file = d.file then betweenNats p.rank d.rank else []).any fun r =>
      (b ⟨p.file, r⟩).isSome)
  || ((if p.rank = d.rank then betweenNats p.file d.file else []).any fun f =>
      (b ⟨f, p.rank⟩).isSome)

/-- The Bishop arm of Game::_is_piece_in_way: walk offsets 1 up to
(excluding) the larger absolute coordinate difference, stepping by the
signs of the differences; off-board steps are skipped. -/
def bishopInWay (b : Board) (p d : Position) : Bool :=
  let file : Int := (d.file : Int) - (p.file : Int)
  let rank : Int := (d.rank : Int) - (p.rank : Int)
  (List.range' 1 (max file.natAbs rank.natAbs - 1)).any fun offset =>
    match p.relative_pos ((offset : Int) * file.sign) ((offset : Int) * rank.sign) with
    | some bp => (b bp).isSome
    | none => false

/-- Obstruction test, mirroring Game::_is_piece_in_way: Knight and King are
never blocked, the Queen delegates to the Bishop and Rook arms, Rook and
Pawn share the straight-line arm. -/
def isPieceInWay (b : Board) (piece : Piece) (p d : Position) : Bool :=
  match piece with
  | .Knight _ | .King _ => false
  | .Queen _ => bishopInWay b p d || rookInWay b p d
  | .Bishop _ => bishopInWay b p d
  | .Rook _ | .Pawn _ => rookInWay b p d

/-- The retain closure inside Game::_get_possible_moves, deciding whether a
geometric destination survives occupancy and obstruction rules. -/
def retainMove (b : Board) (piece : Piece) (pos dest : Position) : Bool :=
  match b dest with
  | some p =>
    if piece.isPawn ∧ pos.file = dest.file then false
    else p.color ≠ piece.color ∧ ¬ isPieceInWay b piece pos dest
  | none =>
    if piece.isPawn then pos.file = dest.file ∧ ¬ isPieceInWay b piece pos dest
    else ¬ isPieceInWay b piece pos dest

/-- Pseudo-legal moves, mirroring Game::_get_possible_moves: None when the
square is empty, otherwise the geometric destinations filtered by the
retain closure. Depends only on the board part of the game. -/
def getPossibleMovesPriv (b : Board) (position : Position) : Option (List Position) :=
  match b position with
  | some piece => some ((piece.valid_destinations position).filter fun dest =>
      retainMove b piece position dest)
  | none => none

/-- True when the piece in the given position pseudo-legally reaches a King
of the given color, mirroring Game::_threatens_king. -/
def threatensKing (b : Board) (position : Position) (color : Color) : Bool :=
  match getPossibleMovesPriv b position with
  | some moves => moves.any fun mv =>
      match b mv with
      | some (Piece.King c) => c = color
      | _ => false
  | none => false

/-- True when any opposing piece threatens the King of the given color,
mirroring Game::_king_is_threatened (iteration over the board entries is
modelled by iterating the 64 squares). -/
def kingIsThreatened (b : Board) (color : Color) : Bool :=
  allPositions.any fun position =>
    match b position with
    | some piece => piece.color ≠ color ∧ threatensKing b position color
    | none => false

/-- The game aggregate, mirroring struct Game; the two-slot promotion array
is a pair (index 0 first). -/
structure Game where
  board : Board
  active_color : Color
  promotion : Piece × Piece
  state : GameState

/-- The back rank arrangement placed by Game::new on ranks 1 and 8
(files 1 to 8: Rook, Knight, Bishop, Queen, King, Bishop, Knight, Rook). -/
def backRank (c : Color) (file : Nat) : Option Piece :=
  if file = 1 then some (.Rook c)
  else if file = 2 then some (.Knight c)
  else if file = 3 then some (.Bishop c)
  else if file = 4 then some (.Queen c)
  else if file = 5 then some (.King c)
  else if file = 6 then some (.Bishop c)
  else if file = 7 then some (.Knight c)
  else if file = 8 then some (.Rook c)
  else none

/-- The starting board built by Game::new, as a function: back ranks on 1
and 8, pawns on ranks 2 and 7, nothing elsewhere. -/
def initialBoard : Board := fun p =>
  if p.rank = 1 then backRank .White p.file
  else if p.rank = 8 then backRank .Black p.file
  else if p.rank = 2 then (if 1 ≤ p.file ∧ p.file ≤ 8 then some (.Pawn .White) else none)
  else if p.rank = 7 then (if 1 ≤ p.file ∧ p.file ≤ 8 then some (.Pawn .Black) else none)
  else none

/-- A fresh game, mirroring Game::new. -/
def Game.new : Game :=
  { board := initialBoard
    active_color := .White
    promotion := (.Queen .White, .Queen .Black)
    state := .InProgress }

/-- promotion.iter().find on the color, as Game::make_move looks up the
promotion piece of the active color. -/
def promFind (g : Game) : Option Piece :=
  if g.promotion.1.color = g.active_color then some g.promotion.1
  else if g.promotion.2.color = g.active_color then some g.promotion.2
  else none

/-- The board after inserting the new piece at the destination and then
removing the origin entry, in that order, as Game::make_move mutates the
HashMap. -/
def movedBoard (b : Board) (src dst : Position) (np : Piece) : Board :=
  fun p => if p = src then none else if p = dst then some np else b p

/-- The piece placed at the destination by Game::make_move: the active
color's promotion piece (Queen when the lookup finds none) when a Pawn
reaches rank 1 or 8, otherwise the moving piece itself. -/
def promotedPiece (g : Game) (piece : Piece) (dst : Position) : Piece :=
  if (dst.rank = 1 ∨ dst.rank = 8) ∧ piece.isPawn then
    (promFind g).getD (.Queen g.active_color)
  else piece

/-- Move execution, mirroring Game::make_move. Returns the Result together
with the resulting game (the Rust method mutates self); every error leaves
the game as it was, the self-check error by restoring the cloned board. -/
def Game.make_move (g : Game) (_from _to : String) : Except String (Option Piece) × Game :=
  match Position.from_string _from, Position.from_string _to with
  | .ok src, .ok dst =>
    match g.board src with
    | some piece =>
      if piece.color ≠ g.active_color then (.error "Trying to move opponents piece", g)
      else
        match getPossibleMovesPriv g.board src with
        | some possible_moves =>
          if dst ∈ possible_moves then
            if isKingOpt (g.board dst) then (.error "Cannot capture king", g)
            else
              let new_piece := promotedPiece g piece dst
              let before_move := g.board
              let removed := g.board dst
              let board2 := movedBoard before_move src dst new_piece
              if kingIsThreatened board2 g.active_color then
                (.error "Move threatens own king", { g with board := before_move })
              else
                (.ok removed,
                  { g with
                    board := board2
                    state := if kingIsThreatened board2 g.active_color.not then .Check
                             else .InProgress
                    active_color := g.active_color.not })
          else (.error "Destination move is invalid", g)
        | none => (.error "No possible moves", g)
    | none => (.error "No piece in position(s)", g)
  | _, _ => (.error "Invalid position(s)", g)

/-- Mirror of Game::_ok_to_make_move: queries for the inactive color are
always fine; for the active color the move is tried on a clone. The empty
square case is unreachable at every call site (the source unwraps). -/
def Game.okToMakeMove (g : Game) (src dst : Position) : Bool :=
  match g.board src with
  | some piece =>
    if g.active_color ≠ piece.color then true
    else (g.make_move src.to_string dst.to_string).1.isOk
  | none => false

/-- Byte-order comparison of two square strings (every square string is
ASCII, so comparing scalar values matches Rust byte order). -/
def charListLe : List Char → List Char → Bool
  | [], _ => true
  | _ :: _, [] => false
  | a :: as, b :: bs =>
    if a.val < b.val then true
    else if b.val < a.val then false
    else charListLe as bs

/-- String order used to model Vec::sort_unstable on the move list. -/
def strLe (a b : String) : Bool := charListLe a.data b.data

/-- Insert into a sorted list of strings. -/
def insertSorted (x : String) : List String → List String
  | [] => [x]
  | y :: ys => if strLe x y then x :: y :: ys else y :: insertSorted x ys

/-- Sort a list of strings; models Vec::sort_unstable (the produced sorted
permutation is unique because the listed square strings are distinct). -/
def sortStrings : List String → List String
  | [] => []
  | x :: xs => insertSorted x (sortStrings xs)

/-- Public move query, mirroring Game::get_possible_moves: parse the
square, compute pseudo-legal moves, drop King destinations, drop moves the
king-safety check rejects, and return the textual forms sorted. -/
def Game.get_possible_moves (g : Game) (_position : String) : Option (List String) :=
  match Position.from_string _position with
  | .ok position =>
    match getPossibleMovesPriv g.board position with
    | some moves =>
      let moves1 := moves.filter fun p => ¬ isKingOpt (g.board p)
      let moves2 := moves1.filter fun p => g.okToMakeMove position p
      some (sortStrings (moves2.map Position.to_string))
    | none => none
  | .error _ => none

/-- Checkmate scan, mirroring Game::_is_checkmate: no piece of the color
may have any possible move (board iteration modelled over the 64 squares). -/
def Game.isCheckmate (g : Game) (color : Color) : Bool :=
  allPositions.all fun pos =>
    match g.board pos with
    | some piece =>
      if piece.color = color then
        match g.get_possible_moves pos.to_string with
        | some moves => moves.length = 0
        | none => true
      else true
    | none => true

/-- The promotion piece named by a string for a color, the match inside
Game::set_promotion (ASCII model of String::to_lowercase). -/
def promMatch (s : String) (c : Color) : Option Piece :=
  if s.toLower = "queen" then some (.Queen c)
  else if s.toLower = "rook" then some (.Rook c)
  else if s.toLower = "bishop" then some (.Bishop c)
  else if s.toLower = "knight" then some (.Knight c)
  else none

/-- Mirror of Game::set_promotion: the first promotion slot of the active
color is replaced; an unrecognised name is an error leaving the game
unchanged; with no matching slot nothing happens and Ok is returned. -/
def Game.set_promotion (g : Game) (_piece : String) : Except String Unit × Game :=
  let color := g.active_color
  if g.promotion.1.color = color then
    match promMatch _piece color with
    | some pc => (.ok (), { g with promotion := (pc, g.promotion.2) })
    | none => (.error "Invalid promotion piece", g)
  else if g.promotion.2.color = color then
    match promMatch _piece color with
    | some pc => (.ok (), { g with promotion := (g.promotion.1, pc) })
    | none => (.error "Invalid promotion piece", g)
  else (.ok (), g)

/-- Mirror of Game::get_game_state: a checkmate scan for the active color
may upgrade the cached state, which is then returned. -/
def Game.get_game_state (g : Game) : GameState × Game :=
  if g.isCheckmate g.active_color then (.CheckMate, { g with state := .CheckMate })
  else (g.state, g)

/-! ### Basic lemmas about the coordinate model -/

theorem isValid_iff {p : Position} :
    p.isValid = true ↔ (1 ≤ p.file ∧ p.file ≤ 8) ∧ (1 ≤ p.rank ∧ p.rank ≤ 8) := by
  simp [Position.isValid]

theorem relative_pos_eq_some_iff {p q : Position} {fo ro : Int} :
    p.relative_pos fo ro = some q ↔
      (1 ≤ (p.file : Int) + fo ∧ (p.file : Int) + fo ≤ 8 ∧
       1 ≤ (p.rank : Int) + ro ∧ (p.rank : Int) + ro ≤ 8 ∧
       (q.file : Int) = (p.file : Int) + fo ∧ (q.rank : Int) = (p.rank : Int) + ro) := by
  unfold Position.relative_pos
  dsimp only
  split
  next h =>
    obtain ⟨⟨h1, h2⟩, h3, h4⟩ := h
    simp only [Option.some.injEq]
    constructor
    · rintro rfl
      refine ⟨h1, h2, h3, h4, ?_, ?_⟩ <;> simp <;> omega
    · rintro ⟨-, -, -, -, hf, hr⟩
      obtain ⟨qf, qr⟩ := q
      simp_all
      omega
  next h =>
    simp only [reduceCtorEq, false_iff]
    rintro ⟨h1, h2, h3, h4, -, -⟩
    exact h ⟨⟨h1, h2⟩, h3, h4⟩

theorem relative_pos_isValid {p q : Position} {fo ro : Int}
    (h : p.relative_pos fo ro = some q) : q.isValid = true := by
  rw [relative_pos_eq_some_iff] at h
  rw [isValid_iff]
  omega

theorem mem_allPositions {p : Position} : p ∈ allPositions ↔ p.isValid = true := by
  rw [isValid_iff]
  simp only [allPositions, List.mem_map, List.mem_range]
  constructor
  · rintro ⟨i, hi, rfl⟩
    refine ⟨⟨?_, ?_⟩, ?_, ?_⟩ <;> simp <;> omega
  · rintro ⟨⟨h1, h2⟩, h3, h4⟩
    refine ⟨(p.file - 1) * 8 + (p.rank - 1), by omega, ?_⟩
    obtain ⟨f, r⟩ := p
    simp_all
    constructor <;> omega

theorem allPositions_nodup : allPositions.Nodup := by decide

/-- Every geometric destination of a piece is an on-board square. -/
theorem valid_destinations_isValid {pc : Piece} {pos q : Position}
    (h : q ∈ pc.valid_destinations pos) : q.isValid = true := by
  unfold Piece.valid_destinations at h
  rw [List.mem_filter] at h
  replace h := List.mem_dedup.mp h.1
  cases pc <;>
    simp only [List.mem_append, List.mem_filterMap, List.mem_flatten, List.mem_map,
      rookRaw, bishopRaw, pawnRaw] at h
  case King c =>
    obtain ⟨o, -, ho⟩ := h
    exact relative_pos_isValid ho
  case Queen c =>
    rcases h with (⟨o, -, ho⟩ | ⟨o, -, ho⟩) | ⟨l, ⟨dir, -, rfl⟩, hq⟩
    · exact relative_pos_isValid ho
    · exact relative_pos_isValid ho
    · obtain ⟨d, -, hd⟩ := List.mem_filterMap.mp hq
      exact relative_pos_isValid hd
  case Rook c =>
    rcases h with ⟨o, -, ho⟩ | ⟨o, -, ho⟩ <;> exact relative_pos_isValid ho
  case Bishop c =>
    obtain ⟨l, ⟨dir, -, rfl⟩, hq⟩ := h
    obtain ⟨d, -, hd⟩ := List.mem_filterMap.mp hq
    exact relative_pos_isValid hd
  case Knight c =>
    obtain ⟨o, -, ho⟩ := h
    exact relative_pos_isValid ho
  case Pawn c =>
    rcases h with ⟨o, -, ho⟩ | ⟨o, -, ho⟩ <;> exact relative_pos_isValid ho

/-- A geometric destination is never the origin square. -/
theorem valid_destinations_ne {pc : Piece} {pos q : Position}
    (h : q ∈ pc.valid_destinations pos) : q ≠ pos := by
  unfold Piece.valid_destinations at h
  rw [List.mem_filter] at h
  simpa using h.2

/-! ### Parse and format round trip -/

theorem from_string_to_string {p : Position} (h : p.isValid = true) :
    Position.from_string p.to_string = .ok p := by
  obtain ⟨f, r⟩ := p
  rw [isValid_iff] at h
  obtain ⟨⟨h1, h2⟩, h3, h4⟩ := h
  simp only at h1 h2 h3 h4
  interval_cases f <;> interval_cases r <;> decide

theorem to_string_inj {p q : Position} (hp : p.isValid = true) (hq : q.isValid = true)
    (h : p.to_string = q.to_string) : p = q := by
  have h1 := from_string_to_string hp
  have h2 := from_string_to_string hq
  rw [h, h2] at h1
  injection h1 with h1
  exact h1.symm

/-! ### Sorting lemmas -/

theorem mem_insertSorted {a x : String} {l : List String} :
    a ∈ insertSorted x l ↔ a = x ∨ a ∈ l := by
  induction l with
  | nil => simp [insertSorted]
  | cons y ys ih =>
    unfold insertSorted
    split
    · simp
    · simp [ih]
      tauto

theorem mem_sortStrings {a : String} {l : List String} :
    a ∈ sortStrings l ↔ a ∈ l := by
  induction l with
  | nil => simp [sortStrings]
  | cons x xs ih => simp [sortStrings, mem_insertSorted, ih]

theorem insertSorted_ne_nil {x : String} {l : List String} : insertSorted x l ≠ [] := by
  cases l <;> simp [insertSorted] <;> split <;> simp

theorem sortStrings_eq_nil {l : List String} : sortStrings l = [] ↔ l = [] := by
  cases l with
  | nil => simp [sortStrings]
  | cons x xs => simp [sortStrings, insertSorted_ne_nil]

/-! ### Structural lemmas about the move executor -/

/-- Either a call to make_move leaves the game unchanged, or it succeeded. -/
theorem make_move_snd_or (g : Game) (f t : String) :
    (g.make_move f t).2 = g ∨ (g.make_move f t).1.isOk = true := by
  unfold Game.make_move
  split
  · split
    · split
      · left; rfl
      · split
        · split
          · split
            · left; rfl
            · dsimp only
              split
              · left; rfl
              · right; rfl
          · left; rfl
        · left; rfl
    · left; rfl
  · left; rfl

/-- Any failing make_move leaves the game exactly as it was. -/
theorem make_move_fail_eq {g : Game} {f t : String}
    (h : (g.make_move f t).1.isOk = false) : (g.make_move f t).2 = g := by
  rcases make_move_snd_or g f t with h2 | h2
  · exact h2
  · rw [h2] at h; cases h

/-- Inversion of a successful make_move: all the checks along the success
path hold, the returned piece is the board entry at the destination, and
the resulting game has the moved board, the flipped color, the recomputed
state, and untouched promotion slots. -/
theorem make_move_ok_inv {g : Game} {f t : String} {r : Option Piece}
    (h : (g.make_move f t).1 = .ok r) :
    ∃ src dst piece,
      Position.from_string f = .ok src ∧
      Position.from_string t = .ok dst ∧
      g.board src = some piece ∧
      piece.color = g.active_color ∧
      (∃ pm, getPossibleMovesPriv g.board src = some pm ∧ dst ∈ pm) ∧
      isKingOpt (g.board dst) = false ∧
      r = g.board dst ∧
      kingIsThreatened (movedBoard g.board src dst (promotedPiece g piece dst))
        g.active_color = false ∧
      (g.make_move f t).2.board = movedBoard g.board src dst (promotedPiece g piece dst) ∧
      (g.make_move f t).2.active_color = g.active_color.not ∧
      (g.make_move f t).2.state =
        (if kingIsThreatened (movedBoard g.board src dst (promotedPiece g piece dst))
            g.active_color.not then GameState.Check else GameState.InProgress) ∧
      (g.make_move f t).2.promotion = g.promotion := by
  unfold Game.make_move at h ⊢
  split at h
  case h_1 src dst hf ht =>
    split at h
    case h_1 piece hb =>
      split at h
      case isTrue hc => cases h
      case isFalse hc =>
        split at h
        case h_1 pm hpm =>
          split at h
          case isTrue hmem =>
            split at h
            case isTrue hk => cases h
            case isFalse hk =>
              dsimp only at h ⊢
              split at h
              case isTrue hthr => cases h
              case isFalse hthr =>
                refine ⟨src, dst, piece, hf, ht, hb, ?_, ⟨pm, hpm, hmem⟩, ?_, ?_, ?_, ?_, ?_, ?_, ?_⟩
                · by_contra hcne
                  exact hc fun hcc => hcne hcc
                · simp at hk
                  exact hk
                · injection h with h1; exact h1.symm
                · simp at hthr
                  exact hthr
                · rw [if_neg hc, if_pos hmem, if_neg hk, if_neg hthr]
                · rw [if_neg hc, if_pos hmem, if_neg hk, if_neg hthr]
                · rw [if_neg hc, if_pos hmem, if_neg hk, if_neg hthr]
                · rw [if_neg hc, if_pos hmem, if_neg hk, if_neg hthr]
          case isFalse hmem => cases h
        case h_2 hpm => cases h
    case h_2 hb => cases h
  case h_2 hf ht => cases h

/-- Construction of a successful make_move: when the square strings are the
textual forms of on-board squares, the moving piece has the active color,
the destination is retained by the pseudo-legal filter, is not a King
square, and the resulting position does not threaten the mover's king, the
move goes through and returns the captured entry. -/
theorem make_move_ok_constr {g : Game} {piece : Piece} {fp tp : Position}
    (hfv : fp.isValid = true) (htv : tp.isValid = true)
    (hb : g.board fp = some piece) (hc : piece.color = g.active_color)
    (hmem : tp ∈ (piece.valid_destinations fp).filter fun d => retainMove g.board piece fp d)
    (hk : isKingOpt (g.board tp) = false)
    (hthr : kingIsThreatened (movedBoard g.board fp tp (promotedPiece g piece tp))
      g.active_color = false) :
    (g.make_move fp.to_string tp.to_string).1 = .ok (g.board tp) := by
  unfold Game.make_move
  split
  case h_2 hno =>
    exact absurd (hno fp tp (from_string_to_string hfv) (from_string_to_string htv)) not_false
  case h_1 src dst hf ht =>
    rw [from_string_to_string hfv] at hf
    rw [from_string_to_string htv] at ht
    injection hf with hf
    injection ht with ht
    subst hf
    subst ht
    split
    case h_2 hnb => rw [hb] at hnb; cases hnb
    case h_1 piece2 hb2 =>
      rw [hb] at hb2
      injection hb2 with hb2
      subst hb2
      rw [if_neg (by simp [hc])]
      split
      case h_2 hnpm => rw [getPossibleMovesPriv, hb] at hnpm; cases hnpm
      case h_1 pm hpm =>
        rw [getPossibleMovesPriv, hb] at hpm
        injection hpm with hpm
        subst hpm
        rw [if_pos hmem, if_neg (by simp [hk]), if_neg (by simp [hthr])]

/-- The public move list for an occupied on-board square exists, and a
square's textual form is listed exactly when the square survives the
pseudo-legal filter, is not a King square, and passes the king-safety
check. -/
theorem mem_get_possible_moves {g : Game} {piece : Piece} {fp tp : Position}
    (hfv : fp.isValid = true) (htv : tp.isValid = true)
    (hb : g.board fp = some piece) :
    ∃ l, g.get_possible_moves fp.to_string = some l ∧
      (tp.to_string ∈ l ↔
        (tp ∈ (piece.valid_destinations fp).filter (fun d => retainMove g.board piece fp d) ∧
         isKingOpt (g.board tp) = false ∧ g.okToMakeMove fp tp = true)) := by
  unfold Game.get_possible_moves
  rw [from_string_to_string hfv]
  simp only [getPossibleMovesPriv, hb]
  refine ⟨_, rfl, ?_⟩
  rw [mem_sortStrings, List.mem_map]
  constructor
  · rintro ⟨q, hq, hqs⟩
    rw [List.mem_filter] at hq
    obtain ⟨hq1, hq2⟩ := hq
    rw [List.mem_filter] at hq1
    obtain ⟨hq0, hq3⟩ := hq1
    have hqv : q.isValid = true :=
      valid_destinations_isValid (List.mem_filter.mp hq0).1
    have : q = tp := to_string_inj hqv htv hqs
    subst this
    simp only [decide_eq_true_eq] at hq3
    refine ⟨hq0, by simpa using hq3, hq2⟩
  · rintro ⟨h1, h2, h3⟩
    refine ⟨tp, ?_, rfl⟩
    rw [List.mem_filter, List.mem_filter]
    exact ⟨⟨h1, by simp [h2]⟩, h3⟩

/-- Whatever from_string accepts is an on-board square. -/
theorem from_string_isValid {s : String} {p : Position}
    (h : Position.from_string s = .ok p) : p.isValid = true := by
  unfold Position.from_string at h
  split at h
  · cases h
  · split at h
    · cases h
    case h_2 _ c rest heq =>
      dsimp only at h
      split at h
      case isTrue ha =>
        split at h
        case h_1 r hr =>
          split at h
          case isTrue hrange =>
            injection h with h
            subst h
            obtain ⟨ha1, ha2⟩ := ha
            have g1 : ('a').toNat ≤ (lowerAscii c).toNat := ha1
            have g2 : (lowerAscii c).toNat ≤ ('h').toNat := ha2
            have e1 : ('a').toNat = 97 := rfl
            have e2 : ('h').toNat = 104 := rfl
            rw [isValid_iff]
            simp only
            omega
          case isFalse => cases h
        case h_2 => cases h
      case isFalse => cases h

/-- A successful Except value. -/
theorem isOk_exists {ε α : Type} {e : Except ε α} (h : e.isOk = true) : ∃ a, e = .ok a := by
  cases e with
  | error x => simp [Except.isOk, Except.toBool] at h
  | ok a => exact ⟨a, rfl⟩

/-! ### Counting pieces -/

/-- Number of occupied board squares. -/
def pieceCount (g : Game) : Nat :=
  (allPositions.filter fun p => (g.board p).isSome).length

/-- Swapping one board entry shifts the occupied-square count by the
difference of the two indicator values. -/
theorem filter_length_update {l : List Position} (hnd : l.Nodup) {f g : Board} {x : Position}
    (hx : x ∈ l) (hagree : ∀ p, p ≠ x → f p = g p) :
    (l.filter fun p => (f p).isSome).length + (if (g x).isSome then 1 else 0)
      = (l.filter fun p => (g p).isSome).length + (if (f x).isSome then 1 else 0) := by
  induction l with
  | nil => cases hx
  | cons a as ih =>
    rw [List.nodup_cons] at hnd
    rcases List.mem_cons.mp hx with h1 | hx2
    · subst h1
      have hsame : as.filter (fun p => (f p).isSome) = as.filter (fun p => (g p).isSome) := by
        apply List.filter_congr
        intro p hp
        rw [hagree p (fun hpx => hnd.1 (hpx ▸ hp))]
      simp only [List.filter_cons, hsame]
      by_cases hf : (f x).isSome <;> by_cases hg2 : (g x).isSome <;>
        simp [hf, hg2] <;> omega
    · have hax : a ≠ x := fun h => hnd.1 (h ▸ hx2)
      have hfa : f a = g a := hagree a hax
      have hrec := ih hnd.2 hx2
      simp only [List.filter_cons, hfa]
      by_cases hga : (g a).isSome <;> simp [hga] <;> omega

/-! ### Claim theorems -/

/-- C1, counterexample to the claim as stated: on the fresh game the query
for the black pawn on e7 lists e6 as a possible move, yet make_move from e7
to e6 is rejected (it is not Black's turn), so acceptance is not equivalent
to membership in the immediately preceding get_possible_moves result. -/
theorem c1_counterexample :
    ¬ (((Game.new.make_move "e7" "e6").1.isOk = true) ↔
        "e6" ∈ (Game.new.get_possible_moves "e7").getD []) := by
  decide

/-- C1 (amended): for squares given in their normalized textual form, when
the queried square holds a piece of the active color, make_move is accepted
exactly when the destination is listed by get_possible_moves computed on
the same state immediately beforehand. -/
theorem c1_accept_iff_listed (g : Game) (fp tp : Position) (piece : Piece)
    (hfv : fp.isValid = true) (htv : tp.isValid = true)
    (hb : g.board fp = some piece) (hc : piece.color = g.active_color) :
    (g.make_move fp.to_string tp.to_string).1.isOk = true ↔
      tp.to_string ∈ (g.get_possible_moves fp.to_string).getD [] := by
  obtain ⟨l, hl, hiff⟩ := mem_get_possible_moves hfv htv hb
  rw [hl]
  simp only [Option.getD_some]
  rw [hiff]
  constructor
  · intro hok
    obtain ⟨r, hr⟩ := isOk_exists hok
    obtain ⟨src, dst, piece2, hf, ht, hb2, -, ⟨pm, hpm, hmem⟩, hk, -, hthr, -, -, -, -⟩ :=
      make_move_ok_inv hr
    rw [from_string_to_string hfv] at hf
    rw [from_string_to_string htv] at ht
    injection hf with hf
    injection ht with ht
    subst hf
    subst ht
    rw [hb] at hb2
    injection hb2 with hb2
    subst hb2
    simp only [getPossibleMovesPriv, hb, Option.some.injEq] at hpm
    subst hpm
    refine ⟨hmem, hk, ?_⟩
    unfold Game.okToMakeMove
    simp only [hb]
    rw [if_neg (by simp [hc]), hr]
    rfl
  · rintro ⟨hmem, hk, hok⟩
    unfold Game.okToMakeMove at hok
    simp only [hb] at hok
    rw [if_neg (by simp [hc])] at hok
    exact hok

/-- C1 witness: the amended equivalence at the white pawn on e2 of the
fresh game, destination e3. -/
theorem c1_witness :
    (Game.new.make_move (Position.to_string ⟨5, 2⟩) (Position.to_string ⟨5, 3⟩)).1.isOk = true ↔
      Position.to_string ⟨5, 3⟩ ∈
        (Game.new.get_possible_moves (Position.to_string ⟨5, 2⟩)).getD [] :=
  c1_accept_iff_listed Game.new ⟨5, 2⟩ ⟨5, 3⟩ (Piece.Pawn .White)
    (by decide) (by decide) (by decide) rfl

/-- C2: every failing make_move, of any failure kind, leaves the whole Game
value (board, active color, promotion preferences, cached state) exactly as
it was. -/
theorem c2_failed_move_leaves_game (g : Game) (f t : String)
    (h : (g.make_move f t).1.isOk = false) : (g.make_move f t).2 = g :=
  make_move_fail_eq h

/-- C2 witness: rejecting the wrong-turn move e7 to e6 on the fresh game
changes nothing. -/
theorem c2_witness : (Game.new.make_move "e7" "e6").2 = Game.new :=
  c2_failed_move_leaves_game Game.new "e7" "e6" (by decide)

/-- C4: a query for a square held by the side not on move skips the
king-safety filter: the listed destinations are exactly the pseudo-legal
destinations that are not King squares. -/
theorem c4_inactive_query_skips_king_safety (g : Game) (fp : Position) (piece : Piece)
    (hfv : fp.isValid = true) (hb : g.board fp = some piece)
    (hc : piece.color ≠ g.active_color) :
    ∃ l, g.get_possible_moves fp.to_string = some l ∧
      ∀ tp : Position, tp.isValid = true →
        (tp.to_string ∈ l ↔
          (tp ∈ (piece.valid_destinations fp).filter (fun d => retainMove g.board piece fp d) ∧
           isKingOpt (g.board tp) = false)) := by
  obtain ⟨l, hl, -⟩ := mem_get_possible_moves hfv hfv hb
  refine ⟨l, hl, ?_⟩
  intro tp htv
  obtain ⟨l2, hl2, hiff⟩ := mem_get_possible_moves hfv htv hb
  rw [hl] at hl2
  injection hl2 with hl2
  subst hl2
  rw [hiff]
  have hok : g.okToMakeMove fp tp = true := by
    unfold Game.okToMakeMove
    simp only [hb]
    rw [if_pos (fun hh => hc hh.symm)]
  simp [hok]

/-- C4 witness: the inactive black pawn on e7 of the fresh game, showing
the characterization at destination square e6. -/
theorem c4_witness :
    ∃ l, Game.new.get_possible_moves (Position.to_string ⟨5, 7⟩) = some l ∧
      ∀ tp : Position, tp.isValid = true →
        (tp.to_string ∈ l ↔
          (tp ∈ ((Piece.Pawn .Black).valid_destinations ⟨5, 7⟩).filter
              (fun d => retainMove Game.new.board (Piece.Pawn .Black) ⟨5, 7⟩ d) ∧
           isKingOpt (Game.new.board tp) = false)) :=
  c4_inactive_query_skips_king_safety Game.new ⟨5, 7⟩ (Piece.Pawn .Black)
    (by decide) (by decide) (by decide)

/-- C5: every successful make_move flips the active color and caches Check
exactly when the resulting board threatens the opponent's king, InProgress
otherwise; the executor never caches CheckMate. -/
theorem c5_success_state_and_turn (g : Game) (f t : String) (r : Option Piece)
    (h : (g.make_move f t).1 = .ok r) :
    (g.make_move f t).2.active_color = g.active_color.not ∧
    (g.make_move f t).2.state =
      (if kingIsThreatened (g.make_move f t).2.board g.active_color.not then GameState.Check
       else GameState.InProgress) ∧
    (g.make_move f t).2.state ≠ GameState.CheckMate := by
  obtain ⟨src, dst, piece, -, -, -, -, -, -, -, -, hbd, hac, hst, -⟩ := make_move_ok_inv h
  refine ⟨hac, ?_, ?_⟩
  · rw [hst, hbd]
  · rw [hst]
    split <;> simp

/-- C5 witness: the opening move e2 to e4. -/
theorem c5_witness :
    (Game.new.make_move "e2" "e4").2.active_color = Game.new.active_color.not ∧
    (Game.new.make_move "e2" "e4").2.state =
      (if kingIsThreatened (Game.new.make_move "e2" "e4").2.board Game.new.active_color.not
       then GameState.Check else GameState.InProgress) ∧
    (Game.new.make_move "e2" "e4").2.state ≠ GameState.CheckMate :=
  c5_success_state_and_turn Game.new "e2" "e4" none (by decide)

/-- C10: a successful make_move returns exactly the piece previously at the
destination (None when it was empty); captures reduce the occupied-square
count by one, non-captures keep it, and it never grows. -/
theorem c10_capture_accounting (g : Game) (f t : String) (r : Option Piece) (tp : Position)
    (h : (g.make_move f t).1 = .ok r) (ht : Position.from_string t = .ok tp) :
    r = g.board tp ∧
    pieceCount (g.make_move f t).2 + (if r.isSome then 1 else 0) = pieceCount g ∧
    pieceCount (g.make_move f t).2 ≤ pieceCount g := by
  obtain ⟨src, dst, piece, hf, ht2, hb, -, ⟨pm, hpm, hmem⟩, -, hr, -, hbd, -, -, -⟩ :=
    make_move_ok_inv h
  rw [ht2] at ht
  injection ht with ht
  subst ht
  simp only [getPossibleMovesPriv, hb, Option.some.injEq] at hpm
  subst hpm
  have hmem2 := (List.mem_filter.mp hmem).1
  have hne : dst ≠ src := valid_destinations_ne hmem2
  have htv : dst.isValid = true := valid_destinations_isValid hmem2
  have hsv : src.isValid = true := from_string_isValid hf
  set np := promotedPiece g piece dst with hnp
  set b1 : Board := fun p => if p = dst then some np else g.board p with hb1
  have step1 := filter_length_update (f := b1) (g := g.board) (x := dst)
    allPositions_nodup (mem_allPositions.mpr htv)
    (fun p hp => by rw [hb1]; simp [hp])
  have step2 := filter_length_update (f := movedBoard g.board src dst np) (g := b1) (x := src)
    allPositions_nodup (mem_allPositions.mpr hsv)
    (fun p hp => by rw [hb1, movedBoard]; simp [hp])
  have hb1dst : b1 dst = some np := by rw [hb1]; simp
  have hb1src : b1 src = some piece := by rw [hb1]; simp [Ne.symm hne, hb]
  have hmv : movedBoard g.board src dst np src = none := by rw [movedBoard]; simp
  rw [hb1dst] at step1
  rw [hb1src, hmv] at step2
  simp only [Option.isSome_some, Option.isSome_none, Bool.false_eq_true, if_true, if_false]
    at step1 step2
  refine ⟨hr, ?_, ?_⟩ <;>
    simp only [pieceCount, hbd, hr] <;>
    omega

/-- A two-pawn position used to exercise a capturing move. -/
def sampleCapture : Game :=
  { board := fun p =>
      if p = ⟨4, 4⟩ then some (.Pawn .White)
      else if p = ⟨5, 5⟩ then some (.Pawn .Black)
      else none
    active_color := .White
    promotion := (.Queen .White, .Queen .Black)
    state := .InProgress }

/-- C10 witness: the white pawn d4 captures the black pawn e5. -/
theorem c10_witness :
    some (Piece.Pawn .Black) = sampleCapture.board ⟨5, 5⟩ ∧
    pieceCount (sampleCapture.make_move "d4" "e5").2 +
        (if (some (Piece.Pawn .Black)).isSome then 1 else 0) = pieceCount sampleCapture ∧
    pieceCount (sampleCapture.make_move "d4" "e5").2 ≤ pieceCount sampleCapture :=
  c10_capture_accounting sampleCapture "d4" "e5" (some (.Pawn .Black)) ⟨5, 5⟩
    (by decide) (by decide)

/-- C3: the checkmate scan returns true exactly when every on-board square
holding a piece of the color yields an empty move list from
get_possible_moves. -/
theorem c3_checkmate_iff_no_moves (g : Game) (color : Color) :
    g.isCheckmate color = true ↔
      ∀ p : Position, p.isValid = true → ∀ pc : Piece, g.board p = some pc →
        pc.color = color → (g.get_possible_moves p.to_string).getD [] = [] := by
  unfold Game.isCheckmate
  rw [List.all_eq_true]
  constructor
  · intro h p hpv pc hb hcol
    have hx := h p (mem_allPositions.mpr hpv)
    simp only [hb] at hx
    rw [if_pos hcol] at hx
    obtain ⟨l, hl, -⟩ := mem_get_possible_moves hpv hpv hb
    rw [hl] at hx
    simp only [decide_eq_true_eq] at hx
    rw [hl]
    simpa using List.length_eq_zero.mp hx
  · intro h p hp
    cases hbp : g.board p with
    | none => simp
    | some pc =>
      simp only
      by_cases hcol : pc.color = color
      · rw [if_pos hcol]
        have hpv := mem_allPositions.mp hp
        have hempty := h p hpv pc hbp hcol
        obtain ⟨l, hl, -⟩ := mem_get_possible_moves hpv hpv hbp
        rw [hl] at hempty ⊢
        simp only [Option.getD_some] at hempty
        simp [hempty]
      · rw [if_neg hcol]

/-- The sixteen letters accepted as a file. -/
def fileChars : List Char :=
  ['a', 'b', 'c', 'd', 'e', 'f', 'g', 'h', 'A', 'B', 'C', 'D', 'E', 'F', 'G', 'H']

/-- The eight digits accepted as a rank. -/
def rankChars : List Char := ['1', '2', '3', '4', '5', '6', '7', '8']

/-- C9: parsing a valid two-character square text and formatting the result
yields the lower-case normalized form of the text. -/
theorem c9_roundtrip (c d : Char) (hc : c ∈ fileChars) (hd : d ∈ rankChars) :
    (Position.from_string ⟨[c, d]⟩).map Position.to_string = .ok ⟨[lowerAscii c, d]⟩ := by
  fin_cases hc <;> fin_cases hd <;> decide

/-- C9 witness: the upper-case square text E3 normalizes to e3. -/
theorem c9_witness :
    (Position.from_string ⟨['E', '3']⟩).map Position.to_string =
      .ok ⟨[lowerAscii 'E', '3']⟩ :=
  c9_roundtrip 'E' '3' (by decide) (by decide)

/-- The starting rank of a pawn of each color. -/
def pawnStartRank : Color → Nat
  | .White => 2
  | .Black => 7

/-- Claim-side description of the pawn destination set, following the
claim's words: one square forward, plus two squares forward exactly when
the pawn stands on its own starting rank (rank 2 for White, rank 7 for
Black), plus the two forward diagonals; direction by color, off-board
results dropped, origin excluded. -/
def pawnSpecMoves (c : Color) (pos : Position) : List Position :=
  (([((0 : Int), c.direction)]
    ++ (if pos.rank = pawnStartRank c then [((0 : Int), 2 * c.direction)] else [])
    ++ [((-1 : Int), c.direction), ((1 : Int), c.direction)]).filterMap
      fun (o : Int × Int) => pos.relative_pos o.1 o.2).filter fun q => q ≠ pos

theorem mem_pawnRaw {c : Color} {pos q : Position} :
    q ∈ pawnRaw c pos ↔
      (pos.relative_pos 0 c.direction = some q ∨
       ((pos.rank = 2 ∨ pos.rank = 7) ∧ pos.relative_pos 0 (2 * c.direction) = some q) ∨
       pos.relative_pos (-1) c.direction = some q ∨
       pos.relative_pos 1 c.direction = some q) := by
  unfold pawnRaw
  by_cases hsr : pos.rank = 2 ∨ pos.rank = 7
  · rw [if_pos hsr]
    dsimp only
    have h2 : List.range 2 = [0, 1] := rfl
    rw [h2]
    simp [hsr]
    try norm_num
    try tauto
  · rw [if_neg hsr]
    dsimp only
    have h1 : List.range 1 = [0] := rfl
    rw [h1]
    simp [hsr]
    try norm_num
    try tauto

theorem mem_pawnSpecMoves {c : Color} {pos q : Position} :
    q ∈ pawnSpecMoves c pos ↔
      (q ≠ pos ∧
       (pos.relative_pos 0 c.direction = some q ∨
        (pos.rank = pawnStartRank c ∧ pos.relative_pos 0 (2 * c.direction) = some q) ∨
        pos.relative_pos (-1) c.direction = some q ∨
        pos.relative_pos 1 c.direction = some q)) := by
  unfold pawnSpecMoves
  by_cases hsr : pos.rank = pawnStartRank c
  · rw [if_pos hsr]
    simp [hsr]
    tauto
  · rw [if_neg hsr]
    simp [hsr]
    tauto

/-- C6: the pawn arm of valid_destinations computes, as a set, exactly the
claimed pawn destination set. -/
theorem c6_pawn_destinations (c : Color) (pos q : Position) :
    q ∈ (Piece.Pawn c).valid_destinations pos ↔ q ∈ pawnSpecMoves c pos := by
  simp only [Piece.valid_destinations, List.mem_filter, List.mem_dedup, decide_eq_true_eq]
  rw [mem_pawnRaw, mem_pawnSpecMoves]
  cases c
  case White =>
    have himp : pos.rank = 7 → pos.relative_pos 0 (2 * Color.direction .White) = some q →
        False := by
      intro h7 hrel
      rw [relative_pos_eq_some_iff] at hrel
      simp [Color.direction] at hrel
      omega
    simp only [pawnStartRank]
    constructor
    · rintro ⟨h1 | ⟨h2 | h7, hstep⟩ | h3 | h4, hne⟩ <;>
        first
          | exact ⟨hne, Or.inl h1⟩
          | exact ⟨hne, Or.inr (Or.inl ⟨h2, hstep⟩)⟩
          | exact absurd hstep (fun hh => himp h7 hh)
          | exact ⟨hne, Or.inr (Or.inr (Or.inl h3))⟩
          | exact ⟨hne, Or.inr (Or.inr (Or.inr h4))⟩
    · rintro ⟨hne, h1 | ⟨h2, hstep⟩ | h3 | h4⟩ <;>
        first
          | exact ⟨Or.inl h1, hne⟩
          | exact ⟨Or.inr (Or.inl ⟨Or.inl h2, hstep⟩), hne⟩
          | exact ⟨Or.inr (Or.inr (Or.inl h3)), hne⟩
          | exact ⟨Or.inr (Or.inr (Or.inr h4)), hne⟩
  case Black =>
    have himp : pos.rank = 2 → pos.relative_pos 0 (2 * Color.direction .Black) = some q →
        False := by
      intro h2 hrel
      rw [relative_pos_eq_some_iff] at hrel
      simp [Color.direction] at hrel
      omega
    simp only [pawnStartRank]
    constructor
    · rintro ⟨h1 | ⟨h2 | h7, hstep⟩ | h3 | h4, hne⟩ <;>
        first
          | exact ⟨hne, Or.inl h1⟩
          | exact absurd hstep (fun hh => himp h2 hh)
          | exact ⟨hne, Or.inr (Or.inl ⟨h7, hstep⟩)⟩
          | exact ⟨hne, Or.inr (Or.inr (Or.inl h3))⟩
          | exact ⟨hne, Or.inr (Or.inr (Or.inr h4))⟩
    · rintro ⟨hne, h1 | ⟨h7, hstep⟩ | h3 | h4⟩ <;>
        first
          | exact ⟨Or.inl h1, hne⟩
          | exact ⟨Or.inr (Or.inl ⟨Or.inr h7, hstep⟩), hne⟩
          | exact ⟨Or.inr (Or.inr (Or.inl h3)), hne⟩
          | exact ⟨Or.inr (Or.inr (Or.inr h4)), hne⟩

/-! ### Obstruction test: spec-side path description -/

/-- Chebyshev distance between two squares. -/
def chebDist (p d : Position) : Nat :=
  max ((d.file : Int) - (p.file : Int)).natAbs ((d.rank : Int) - (p.rank : Int)).natAbs

/-- Claim-side description: q lies strictly between p and d on the shared
straight or diagonal path, both ends excluded. -/
def strictlyBetween (p d q : Position) : Prop :=
  ∃ k : Nat, 0 < k ∧ k < chebDist p d ∧
    (q.file : Int) = (p.file : Int) + k * ((d.file : Int) - (p.file : Int)).sign ∧
    (q.rank : Int) = (p.rank : Int) + k * ((d.rank : Int) - (p.rank : Int)).sign

/-- The two squares share a file. -/
def sameFile (p d : Position) : Prop := d.file = p.file

/-- The two squares share a rank. -/
def sameRank (p d : Position) : Prop := d.rank = p.rank

/-- The two squares lie on a common diagonal. -/
def sameDiag (p d : Position) : Prop :=
  ((d.file : Int) - (p.file : Int)).natAbs = ((d.rank : Int) - (p.rank : Int)).natAbs

theorem sign_trichotomy (x : Int) :
    x.sign = -1 ∧ x < 0 ∨ x.sign = 0 ∧ x = 0 ∨ x.sign = 1 ∧ 0 < x := by
  rcases lt_trichotomy x 0 with h | h | h
  · exact Or.inl ⟨Int.sign_eq_neg_one_iff_neg.mpr h, h⟩
  · exact Or.inr (Or.inl ⟨by rw [h]; rfl, h⟩)
  · exact Or.inr (Or.inr ⟨Int.sign_eq_one_iff_pos.mpr h, h⟩)

/-- A strictly-between step along an aligned pair of on-board squares stays
on the board, and relative_pos lands on the between square. -/
theorem between_step_relative_pos {p d q : Position} {k : Nat}
    (hp : p.isValid = true) (hd : d.isValid = true)
    (hal : sameFile p d ∨ sameRank p d ∨ sameDiag p d)
    (hk0 : 0 < k) (hkc : k < chebDist p d)
    (hqf : (q.file : Int) = (p.file : Int) + k * ((d.file : Int) - (p.file : Int)).sign)
    (hqr : (q.rank : Int) = (p.rank : Int) + k * ((d.rank : Int) - (p.rank : Int)).sign) :
    p.relative_pos ((k : Int) * ((d.file : Int) - (p.file : Int)).sign)
        ((k : Int) * ((d.rank : Int) - (p.rank : Int)).sign) = some q := by
  rw [relative_pos_eq_some_iff]
  rw [isValid_iff] at hp hd
  unfold chebDist at hkc
  unfold sameFile sameRank sameDiag at hal
  rcases sign_trichotomy ((d.file : Int) - (p.file : Int)) with ⟨hs1, hv1⟩ | ⟨hs1, hv1⟩ | ⟨hs1, hv1⟩ <;>
    rcases sign_trichotomy ((d.rank : Int) - (p.rank : Int)) with ⟨hs2, hv2⟩ | ⟨hs2, hv2⟩ | ⟨hs2, hv2⟩ <;>
    simp only [hs1, hs2] at hqf hqr ⊢ <;>
    omega

/-- The Bishop arm of the obstruction test, on any aligned pair of on-board
squares, is exactly the claim's blocked test. -/
theorem bishopInWay_iff {b : Board} {p d : Position}
    (hp : p.isValid = true) (hd : d.isValid = true)
    (hal : sameFile p d ∨ sameRank p d ∨ sameDiag p d) :
    bishopInWay b p d = true ↔
      ∃ q, strictlyBetween p d q ∧ (b q).isSome = true := by
  unfold bishopInWay
  dsimp only
  rw [List.any_eq_true]
  constructor
  · rintro ⟨k, hkmem, hmatch⟩
    rw [List.mem_range'_1] at hkmem
    split at hmatch
    case h_1 bp heq =>
      rw [relative_pos_eq_some_iff] at heq
      refine ⟨bp, ⟨k, by omega, by unfold chebDist; omega, ?_, ?_⟩, hmatch⟩
      · exact heq.2.2.2.2.1
      · exact heq.2.2.2.2.2
    case h_2 => cases hmatch
  · rintro ⟨q, ⟨k, hk0, hkc, hqf, hqr⟩, hocc⟩
    refine ⟨k, ?_, ?_⟩
    · rw [List.mem_range'_1]
      unfold chebDist at hkc
      omega
    · rw [between_step_relative_pos hp hd hal hk0 hkc hqf hqr]
      exact hocc

/-- The Rook or Pawn arm of the obstruction test, on a straight pair of
squares, is exactly the claim's blocked test. -/
theorem rookInWay_iff {b : Board} {p d : Position}
    (hst : sameFile p d ∨ sameRank p d) :
    rookInWay b p d = true ↔ ∃ q, strictlyBetween p d q ∧ (b q).isSome = true := by
  unfold sameFile sameRank at hst
  by_cases hdp : d = p
  · subst hdp
    unfold rookInWay betweenNats
    rw [if_pos rfl, if_pos rfl]
    have h0 : max d.rank d.rank - (min d.rank d.rank + 1) = 0 := by omega
    have h0' : max d.file d.file - (min d.file d.file + 1) = 0 := by omega
    rw [h0, h0']
    simp only [List.range'_zero, List.any_nil, Bool.or_false]
    constructor
    · intro h
      simp at h
    · rintro ⟨q, ⟨k, hk0, hkc, -, -⟩, -⟩
      unfold chebDist at hkc
      omega
  · rcases hst with hF | hR
    · have hR : ¬ p.rank = d.rank := by
        intro hh
        exact hdp (by obtain ⟨a, b⟩ := d; obtain ⟨c, e⟩ := p; simp_all)
      unfold rookInWay betweenNats
      rw [if_pos hF.symm, if_neg (fun hh => hR hh)]
      simp only [List.any_nil, Bool.or_false]
      rw [List.any_eq_true]
      have hdf0 : (d.file : Int) - (p.file : Int) = 0 := by omega
      constructor
      · rintro ⟨r, hrmem, hocc⟩
        rw [List.mem_range'_1] at hrmem
        refine ⟨⟨p.file, r⟩, ?_, hocc⟩
        unfold strictlyBetween chebDist
        rw [hdf0, Int.sign_zero]
        rcases sign_trichotomy ((d.rank : Int) - (p.rank : Int)) with
          ⟨hs2, hv2⟩ | ⟨hs2, hv2⟩ | ⟨hs2, hv2⟩ <;> rw [hs2]
        · exact ⟨p.rank - r, by omega, by omega, by simp <;> omega, by simp <;> omega⟩
        · exact absurd (by omega : p.rank = d.rank) hR
        · exact ⟨r - p.rank, by omega, by omega, by simp <;> omega, by simp <;> omega⟩
      · rintro ⟨q, ⟨k, hk0, hkc, hqf, hqr⟩, hocc⟩
        unfold chebDist at hkc
        rw [hdf0, Int.sign_zero] at hqf
        refine ⟨q.rank, ?_, ?_⟩
        · rw [List.mem_range'_1]
          rcases sign_trichotomy ((d.rank : Int) - (p.rank : Int)) with
            ⟨hs2, hv2⟩ | ⟨hs2, hv2⟩ | ⟨hs2, hv2⟩ <;> rw [hs2] at hqr <;> omega
        · have hqq : (⟨p.file, q.rank⟩ : Position) = q := by
            obtain ⟨a, b⟩ := q
            simp_all <;> omega
          rw [hqq]
          exact hocc
    · have hF : ¬ p.file = d.file := by
        intro hh
        exact hdp (by obtain ⟨a, b⟩ := d; obtain ⟨c, e⟩ := p; simp_all)
      unfold rookInWay betweenNats
      rw [if_neg (fun hh => hF hh), if_pos hR.symm]
      simp only [List.any_nil, Bool.false_or]
      rw [List.any_eq_true]
      have hdr0 : (d.rank : Int) - (p.rank : Int) = 0 := by omega
      constructor
      · rintro ⟨f, hfmem, hocc⟩
        rw [List.mem_range'_1] at hfmem
        refine ⟨⟨f, p.rank⟩, ?_, hocc⟩
        unfold strictlyBetween chebDist
        rw [hdr0, Int.sign_zero]
        rcases sign_trichotomy ((d.file : Int) - (p.file : Int)) with
          ⟨hs2, hv2⟩ | ⟨hs2, hv2⟩ | ⟨hs2, hv2⟩ <;> rw [hs2]
        · exact ⟨p.file - f, by omega, by omega, by simp <;> omega, by simp <;> omega⟩
        · exact absurd (by omega : p.file = d.file) hF
        · exact ⟨f - p.file, by omega, by omega, by simp <;> omega, by simp <;> omega⟩
      · rintro ⟨q, ⟨k, hk0, hkc, hqf, hqr⟩, hocc⟩
        unfold chebDist at hkc
        rw [hdr0, Int.sign_zero] at hqr
        refine ⟨q.file, ?_, ?_⟩
        · rw [List.mem_range'_1]
          rcases sign_trichotomy ((d.file : Int) - (p.file : Int)) with
            ⟨hs2, hv2⟩ | ⟨hs2, hv2⟩ | ⟨hs2, hv2⟩ <;> rw [hs2] at hqf <;> omega
        · have hqq : (⟨q.file, p.rank⟩ : Position) = q := by
            obtain ⟨a, b⟩ := q
            simp_all <;> omega
          rw [hqq]
          exact hocc

/-- C7: the obstruction test is true for a Bishop, Rook, or Queen move
along its straight or diagonal path exactly when some square strictly
between origin and destination is occupied, and King and Knight moves are
never obstructed. -/
theorem c7_obstruction (b : Board) (p d : Position) (c : Color)
    (hp : p.isValid = true) (hd : d.isValid = true) :
    (isPieceInWay b (.King c) p d = false ∧ isPieceInWay b (.Knight c) p d = false) ∧
    (sameDiag p d →
      (isPieceInWay b (.Bishop c) p d = true ↔
        ∃ q, strictlyBetween p d q ∧ (b q).isSome = true)) ∧
    ((sameFile p d ∨ sameRank p d) →
      (isPieceInWay b (.Rook c) p d = true ↔
        ∃ q, strictlyBetween p d q ∧ (b q).isSome = true)) ∧
    ((sameFile p d ∨ sameRank p d ∨ sameDiag p d) →
      (isPieceInWay b (.Queen c) p d = true ↔
        ∃ q, strictlyBetween p d q ∧ (b q).isSome = true)) := by
  refine ⟨⟨rfl, rfl⟩, ?_, ?_, ?_⟩
  · intro hdg
    exact bishopInWay_iff hp hd (Or.inr (Or.inr hdg))
  · intro hst
    exact rookInWay_iff hst
  · intro hal
    show (bishopInWay b p d || rookInWay b p d) = true ↔ _
    by_cases hst : sameFile p d ∨ sameRank p d
    · rw [Bool.or_eq_true]
      constructor
      · rintro (h | h)
        · exact (bishopInWay_iff hp hd (by tauto)).mp h
        · exact (rookInWay_iff hst).mp h
      · intro h
        exact Or.inr ((rookInWay_iff hst).mpr h)
    · have hdg : sameDiag p d := by tauto
      obtain ⟨h1, h2⟩ := not_or.mp hst
      unfold sameFile at h1
      unfold sameRank at h2
      have hrw : rookInWay b p d = false := by
        unfold rookInWay
        rw [if_neg (fun hh => h1 hh.symm), if_neg (fun hh => h2 hh.symm)]
        simp
      rw [hrw, Bool.or_false]
      exact bishopInWay_iff hp hd (Or.inr (Or.inr hdg))

/-- C7 witness: the white queenside rook behind its own pawn on the fresh
board. -/
theorem c7_witness :
    isPieceInWay Game.new.board (.Rook .White) ⟨1, 1⟩ ⟨1, 4⟩ = true ↔
      ∃ q, strictlyBetween ⟨1, 1⟩ ⟨1, 4⟩ q ∧ (Game.new.board q).isSome = true :=
  (c7_obstruction Game.new.board ⟨1, 1⟩ ⟨1, 4⟩ .White (by decide) (by decide)).2.2.1
    (Or.inl rfl)

/-! ### Reachable states and the one-king invariant -/

/-- Exactly one square of the board holds a King of the color. -/
def OneKing (c : Color) (b : Board) : Prop :=
  ∃! p : Position, b p = some (Piece.King c)

/-- Game states reachable from Game.new through the public mutating
operations (get_possible_moves takes the game immutably). -/
inductive Reachable : Game → Prop
  | base : Reachable Game.new
  | move (g : Game) (f t : String) : Reachable g → Reachable (g.make_move f t).2
  | promote (g : Game) (s : String) : Reachable g → Reachable (g.set_promotion s).2
  | query (g : Game) : Reachable g → Reachable g.get_game_state.2

/-- The invariant carried through the induction: one king per color and no
King stored in either promotion slot. -/
def KingInv (g : Game) : Prop :=
  OneKing .White g.board ∧ OneKing .Black g.board ∧
  g.promotion.1.isKing = false ∧ g.promotion.2.isKing = false

theorem backRank_king {c c0 : Color} {f : Nat}
    (h : backRank c f = some (Piece.King c0)) : f = 5 ∧ c0 = c := by
  unfold backRank at h
  split_ifs at h <;> simp_all

theorem initialBoard_king {c0 : Color} {p : Position}
    (h : initialBoard p = some (Piece.King c0)) :
    p = ⟨5, if c0 = .White then 1 else 8⟩ := by
  obtain ⟨f, r⟩ := p
  unfold initialBoard at h
  split_ifs at h with h1 h2 h3 h4 <;>
    first
      | (obtain ⟨h5, h6⟩ := backRank_king h ; subst h6 ; simp_all)
      | simp_all

theorem kingInv_new : KingInv Game.new := by
  refine ⟨⟨⟨5, 1⟩, by decide, ?_⟩, ⟨⟨5, 8⟩, by decide, ?_⟩, rfl, rfl⟩ <;>
    intro y hy <;>
    have := initialBoard_king hy <;>
    simpa using this

theorem promMatch_not_king {s : String} {c : Color} {pc : Piece}
    (h : promMatch s c = some pc) : pc.isKing = false := by
  unfold promMatch at h
  split_ifs at h <;> (injection h with h ; rw [← h] ; rfl)

/-- One-king transfer across the executed board move. -/
theorem oneKing_moved {c : Color} {bd : Board} {src dst : Position} {piece np : Piece}
    (hne : dst ≠ src) (hb : bd src = some piece)
    (hkd : isKingOpt (bd dst) = false)
    (hnpk : np = Piece.King c ↔ piece = Piece.King c)
    (h1 : OneKing c bd) : OneKing c (movedBoard bd src dst np) := by
  obtain ⟨kpos, hk1, hk2⟩ := h1
  by_cases hpk : piece = Piece.King c
  · refine ⟨dst, ?_, ?_⟩
    · show movedBoard bd src dst np dst = some (Piece.King c)
      unfold movedBoard
      rw [if_neg hne]
      simp [hnpk.mpr hpk]
    · intro y hy
      unfold movedBoard at hy
      by_cases hys : y = src
      · rw [if_pos hys] at hy; cases hy
      · rw [if_neg hys] at hy
        by_cases hyd : y = dst
        · exact hyd
        · rw [if_neg hyd] at hy
          have hyk : y = kpos := hk2 y hy
          have hksrc : src = kpos := hk2 src (by simp only; rw [hb, hpk])
          exact absurd (hyk.trans hksrc.symm) hys
  · have hnp' : np ≠ Piece.King c := fun hh => hpk (hnpk.mp hh)
    have hksrc : kpos ≠ src := by
      intro hh
      rw [hh, hb] at hk1
      injection hk1 with hk1
      exact hpk hk1
    have hkdst : kpos ≠ dst := by
      intro hh
      rw [hh] at hk1
      rw [hk1] at hkd
      simp [isKingOpt] at hkd
    refine ⟨kpos, ?_, ?_⟩
    · simp only [movedBoard]
      rw [if_neg hksrc, if_neg hkdst]
      exact hk1
    · intro y hy
      unfold movedBoard at hy
      by_cases hys : y = src
      · rw [if_pos hys] at hy; cases hy
      · rw [if_neg hys] at hy
        by_cases hyd : y = dst
        · rw [if_pos hyd] at hy
          injection hy with hy
          exact absurd hy hnp'
        · rw [if_neg hyd] at hy
          exact hk2 y hy

theorem kingInv_move (g : Game) (f t : String) (h : KingInv g) :
    KingInv (g.make_move f t).2 := by
  cases hres : (g.make_move f t).1 with
  | error e =>
    rw [make_move_fail_eq (by rw [hres]; rfl)]
    exact h
  | ok r =>
    obtain ⟨src, dst, piece, hf, ht, hb, hcol, ⟨pm, hpm, hmem⟩, hk, hr, hthr, hbd, hac, hst, hpr⟩ :=
      make_move_ok_inv hres
    have hnpk : ∀ c0 : Color, promotedPiece g piece dst = Piece.King c0 ↔ piece = Piece.King c0 := by
      intro c0
      unfold promotedPiece
      split
      case isTrue hcond =>
        constructor
        · intro hcontra
          exfalso
          unfold promFind at hcontra
          split_ifs at hcontra <;> simp only [Option.getD_some, Option.getD_none] at hcontra
          · have hp1 := h.2.2.1
            rw [hcontra] at hp1
            simp [Piece.isKing] at hp1
          · have hp2 := h.2.2.2
            rw [hcontra] at hp2
            simp [Piece.isKing] at hp2
          · cases hcontra
        · intro hpk
          rw [hpk] at hcond
          simp [Piece.isPawn] at hcond
      case isFalse => exact Iff.rfl
    simp only [getPossibleMovesPriv, hb, Option.some.injEq] at hpm
    subst hpm
    have hne : dst ≠ src := valid_destinations_ne (List.mem_filter.mp hmem).1
    unfold KingInv
    rw [hbd, hpr]
    exact ⟨oneKing_moved hne hb hk (hnpk .White) h.1,
      oneKing_moved hne hb hk (hnpk .Black) h.2.1, h.2.2.1, h.2.2.2⟩

theorem kingInv_promote (g : Game) (s : String) (h : KingInv g) :
    KingInv (g.set_promotion s).2 := by
  unfold Game.set_promotion
  dsimp only
  split_ifs with h1 h2
  · cases hmatch : promMatch s g.active_color with
    | some pc =>
      exact ⟨h.1, h.2.1, promMatch_not_king hmatch, h.2.2.2⟩
    | none => exact h
  · cases hmatch : promMatch s g.active_color with
    | some pc =>
      exact ⟨h.1, h.2.1, h.2.2.1, promMatch_not_king hmatch⟩
    | none => exact h
  · exact h

theorem kingInv_query (g : Game) (h : KingInv g) : KingInv g.get_game_state.2 := by
  unfold Game.get_game_state
  split <;> exact h

theorem reachable_kingInv {g : Game} (h : Reachable g) : KingInv g := by
  induction h with
  | base => exact kingInv_new
  | move g f t _ ih => exact kingInv_move g f t ih
  | promote g s _ ih => exact kingInv_promote g s ih
  | query g _ ih => exact kingInv_query g ih

/-- C8: every game reachable from Game.new through the public operations
has exactly one King of each color on its board. -/
theorem c8_one_king_each (g : Game) (h : Reachable g) :
    OneKing .White g.board ∧ OneKing .Black g.board :=
  ⟨(reachable_kingInv h).1, (reachable_kingInv h).2.1⟩

/-- C8 witness: the invariant at the fresh game. -/
theorem c8_witness : OneKing .White Game.new.board ∧ OneKing .Black Game.new.board :=
  c8_one_king_each Game.new Reachable.base

end EChess
